import Mathlib

/-!
Verification development for the wearable Parkinsonian tremor detector
(`src/main.cpp`).  The sketch is embedded shallowly: machine doubles are
modelled as rationals (the transcendental spectral transform, supplied by
the external `ArduinoFFT` library, is modelled over the reals from the
spec), unsigned counters and millisecond/microsecond clocks are modelled
as naturals, and the single control loop is modelled as a step function
over an explicit state record driven by a list of per-iteration inputs.
-/

namespace Tremor

/-- Constant `const uint16_t samples = 128;` (main.cpp line 8). -/
def samples : ℕ := 128

/-- Constant `const double samplingFreq = 50.0;` (main.cpp line 9), exact as a rational. -/
def samplingFreq : ℚ := 50

/-- Constant `const double dangerZoneIntensity = 60.0;` (main.cpp line 10). -/
def dangerZoneIntensity : ℚ := 60

/-- Constant `const int sampleInterval = 2000;` milliseconds (main.cpp line 11). -/
def sampleInterval : ℕ := 2000

/-- Constant `const int evaluationPeriod = 10 * 60 * 1000;` milliseconds (main.cpp line 12). -/
def evaluationPeriod : ℕ := 10 * 60 * 1000

/-- Constant `unsigned long samplingPeriod = 1000000 / samplingFreq;` microseconds
(main.cpp line 16); the double quotient 20000.0 is stored in an unsigned long. -/
def samplingPeriod : ℕ := 1000000 / 50

/-- The mutable globals of the sketch (main.cpp lines 13-15) that the core
pipeline reads and writes: the sample buffer `vReal` with its write cursor
`index`, the evaluator's counters, and the two timing-gate timestamps.
`lastTime` is in microseconds, `lastSampleSetTime` in milliseconds. -/
structure St where
  index : ℕ
  vReal : ℕ → ℚ
  sampleCount : ℕ
  dangerCount : ℕ
  lastTime : ℕ
  lastSampleSetTime : ℕ

/-- The state at the end of `setup()` (main.cpp lines 32-39) with the
boot-time millisecond clock `t0`: cursor 0, zeroed buffer, zero counters. -/
def initSt (t0 : ℕ) : St :=
  { index := 0
    vReal := fun _ => 0
    sampleCount := 0
    dangerCount := 0
    lastTime := 0
    lastSampleSetTime := t0 }

/-- One accepted push into the sample window: the body of `collectSamples`
once the sampling-period gate has fired (main.cpp lines 106-114).  When the
cursor is 0 all `samples` slots are first cleared to 0 (lines 106-108), the
sample is written at the cursor, the cursor advances, and on reaching
capacity it wraps to 0 and the push reports completion. -/
def push (s : St) (sample : ℚ) : St × Bool :=
  let buf0 := if s.index = 0 then (fun _ => (0 : ℚ)) else s.vReal
  let buf1 := Function.update buf0 s.index sample
  if samples ≤ s.index + 1 then
    ({ s with vReal := buf1, index := 0 }, true)
  else
    ({ s with vReal := buf1, index := s.index + 1 }, false)

/-- Iterate `push` over a list of samples, collecting the returned booleans
in order. -/
def pushList (s : St) : List ℚ → St × List Bool
  | [] => (s, [])
  | x :: xs =>
    let p := push s x
    let q := pushList p.1 xs
    (q.1, p.2 :: q.2)

/-- Function `collectSamples()` (main.cpp lines 100-117) at one loop pass occurring
at microsecond time `t` with sensed magnitude `mag` (the sketch computes
`mag = sqrt(x*x+y*y+z*z)` from the external accelerometer): if at least
`samplingPeriod` microseconds have elapsed since the last accepted sample,
record the time and push the magnitude; otherwise report no completion. -/
def collectSamples (s : St) (t : ℕ) (mag : ℚ) : St × Bool :=
  if samplingPeriod ≤ t - s.lastTime then
    push { s with lastTime := t } mag
  else
    (s, false)

/-- Statement `double dangerRatio = (double)dangerCount / sampleCount;`
(main.cpp line 75), over exact rationals. -/
def dangerRatio (dc sc : ℕ) : ℚ := (dc : ℚ) / (sc : ℚ)

/-- The one-shot signal the evaluator emits at an evaluation-period
boundary: the alarm tone (main.cpp line 80) or the no-alarm message
(main.cpp line 82). -/
inductive Event where
  | AlarmTriggered
  | NoAlarm
deriving DecidableEq

/-- Value of the global `dangerCount` after the conditional increment of
main.cpp lines 65-67 (the tick's classification against
`dangerZoneIntensity`), as read by the period-boundary logic. -/
def tickDangerCount (s : St) (intensity : ℚ) : ℕ :=
  if dangerZoneIntensity ≤ intensity then s.dangerCount + 1 else s.dangerCount

/-- Value of the global `sampleCount` after the unconditional increment of
main.cpp line 68, as read by the period-boundary logic. -/
def tickSampleCount (s : St) : ℕ := s.sampleCount + 1

/-- The classification-tick and period-boundary logic of `loop()`
(main.cpp lines 64-89), entered after a completed window was analyzed to
`intensity`.  `nowMs` is the millisecond clock for this pass and
`alarmEnabled` the externally toggled `isAlarmEnabled` flag.  If at least
`sampleInterval` ms have elapsed since `lastSampleSetTime`, the tick
classifies the intensity against `dangerZoneIntensity` and bumps the
counters; if moreover `evaluationPeriod` ms have elapsed, the danger ratio
is computed from the just-updated counters, the alarm decision is emitted,
and the counters and `lastSampleSetTime` are reset. -/
def classifyTick (s : St) (nowMs : ℕ) (intensity : ℚ) (alarmEnabled : Bool) :
    St × Option Event :=
  if sampleInterval ≤ nowMs - s.lastSampleSetTime then
    if evaluationPeriod ≤ nowMs - s.lastSampleSetTime then
      let ev := if 3/5 ≤ dangerRatio (tickDangerCount s intensity) (tickSampleCount s) ∧
          alarmEnabled = true then
          Event.AlarmTriggered
        else
          Event.NoAlarm
      ({ s with dangerCount := 0, sampleCount := 0, lastSampleSetTime := nowMs }, some ev)
    else
      ({ s with dangerCount := tickDangerCount s intensity,
                sampleCount := tickSampleCount s }, none)
  else
    (s, none)

/-- The band test of main.cpp line 142: the frequency `i * sf / n` of bin
`i` lies in the closed tremor band `[3, 6]` Hz. -/
def inBand (sf : ℚ) (n : ℕ) (i : ℕ) : Prop :=
  3 ≤ (i : ℚ) * sf / (n : ℚ) ∧ (i : ℚ) * sf / (n : ℚ) ≤ 6

instance (sf : ℚ) (n i : ℕ) : Decidable (inBand sf n i) := by
  unfold inBand
  infer_instance

/-- The loop body of `analyzeFFT` (main.cpp lines 141-144): fold the
running maximum over the bins whose frequency is in the band. -/
def binStep (v : ℕ → ℚ) (sf : ℚ) (n : ℕ) (m : ℚ) (i : ℕ) : ℚ :=
  if inBand sf n i then max m (v i) else m

/-- Function `analyzeFFT()` (main.cpp lines 138-147) generalised over the magnitude
buffer, sampling frequency and buffer length it reads: scan bins `i` from 1
to `n/2 - 1`, compute `frequency = i * sf / n`, and keep the running
maximum magnitude of the bins whose frequency lies in `[3, 6]`, starting
from 0. -/
def analyzeFFT (v : ℕ → ℚ) (sf : ℚ) (n : ℕ) : ℚ :=
  (List.range' 1 (n / 2 - 1)).foldl (binStep v sf n) 0

/-- The set of spectrum bins `analyzeFFT` may aggregate: indices in
`[1, n/2 - 1]` whose bin frequency `i * sf / n` lies in the closed band
`[3, 6]`. -/
def tremorBand (sf : ℚ) (n : ℕ) : Finset ℕ :=
  (Finset.range (n / 2)).filter (fun i => 1 ≤ i ∧ inBand sf n i)

/-- The discrete severity tier rendered by `updateFeedback` (green, yellow
or red pixel patterns). -/
inductive Tier where
  | Low
  | Medium
  | High
deriving DecidableEq

/-- The branch structure of `updateFeedback(double intensity)`
(main.cpp lines 182-223) with `lowThreshold = 25`, `highThreshold = 60`:
`intensity < 25` renders the green (Low) pattern, `25 <= intensity < 60`
the yellow (Medium) pattern, and everything else the red (High) pattern. -/
def mapTier (intensity : ℚ) : Tier :=
  if intensity < 25 then Tier.Low
  else if 25 ≤ intensity ∧ intensity < 60 then Tier.Medium
  else Tier.High

/-- The externally observable quantities of one pass of `loop()`: the
monotonic clock `t` in microseconds (`micros()`; `millis()` is `t / 1000`),
the sensed triaxial magnitude `mag`, and the two button-owned flags
`isDeviceRunning` and `isAlarmEnabled` as read on this pass. -/
structure In where
  t : ℕ
  mag : ℚ
  running : Bool
  alarm : Bool

/-- One pass of `loop()` (main.cpp lines 54-92), parametrised by `F`, the
effect of the external `ArduinoFFT` pipeline of `performFFT()` on the
sample buffer (the library transforms `vReal` in place into the magnitude
spectrum; the library itself is not part of this repository).  When the
device is running and `collectSamples` completes a window, `performFFT`
rewrites the buffer, `analyzeFFT` extracts the intensity from it, and the
evaluator logic of lines 64-89 runs on the millisecond clock. -/
def loopStep (F : (ℕ → ℚ) → (ℕ → ℚ)) (s : St) (i : In) : St × Option Event :=
  if i.running = true then
    let c := collectSamples s i.t i.mag
    if c.2 = true then
      let s1 := { c.1 with vReal := F c.1.vReal }
      let intensity := analyzeFFT s1.vReal samplingFreq samples
      classifyTick s1 (i.t / 1000) intensity i.alarm
    else (c.1, none)
  else (s, none)

/-- Iterated `loop()` passes: the state after consuming a list of
per-pass inputs. -/
def run (F : (ℕ → ℚ) → (ℕ → ℚ)) (s : St) (l : List In) : St :=
  l.foldl (fun s i => (loopStep F s i).1) s

/-- Whether the pass with input `i` from state `s` completes a sample
window (that is, `collectSamples()` returns true inside a running device,
main.cpp line 57). -/
def completedAt (s : St) (i : In) : Bool :=
  i.running && (collectSamples s i.t i.mag).2

/-- Whether the pass with input `i` from state `s` performs a
classification tick of the evaluator: the window completed and the
`sampleInterval` gate of main.cpp line 64 fired (a tick is exactly the
event that increments `sampleCount`).  `collectSamples` does not touch
`lastSampleSetTime`, so the gate reads it from `s`. -/
def tickedAt (s : St) (i : In) : Bool :=
  completedAt s i && decide (sampleInterval ≤ i.t / 1000 - s.lastSampleSetTime)

/-- The microsecond times of the passes that complete a sample window,
along a run. -/
def completionTimes (F : (ℕ → ℚ) → (ℕ → ℚ)) (s : St) : List In → List ℕ
  | [] => []
  | i :: l => (if completedAt s i then [i.t] else []) ++ completionTimes F (loopStep F s i).1 l

/-- The microsecond times of the passes that perform a classification
tick, along a run. -/
def tickTimes (F : (ℕ → ℚ) → (ℕ → ℚ)) (s : St) : List In → List ℕ
  | [] => []
  | i :: l => (if tickedAt s i then [i.t] else []) ++ tickTimes F (loopStep F s i).1 l

/-- Earliest microsecond time at which the current fill cycle can complete:
the last accepted-sample time plus one sampling period per still-unfilled
slot.  Used to space consecutive window completions. -/
def phi (s : St) : ℕ := s.lastTime + (samples - s.index) * samplingPeriod

/-- Modelled from the spec: the Hamming windowing weight applied by the
external `ArduinoFFT` library call `FFT.windowing(FFT_WIN_TYP_HAMMING,
FFT_FORWARD)` (main.cpp line 127); spec §4.2 step 1. -/
noncomputable def hammingWeight (n i : ℕ) : ℝ :=
  0.54 - 0.46 * Real.cos (2 * Real.pi * i / ((n : ℝ) - 1))

/-- Modelled from the spec: real part of the forward discrete Fourier
transform of the complex sequence `re + im·I`, as computed by the external
`ArduinoFFT` call `FFT.compute(FFT_FORWARD)` (main.cpp line 128);
spec §4.2 step 2. -/
noncomputable def dftRe (re im : ℕ → ℝ) (n k : ℕ) : ℝ :=
  ∑ j ∈ Finset.range n,
    (re j * Real.cos (2 * Real.pi * k * j / n) + im j * Real.sin (2 * Real.pi * k * j / n))

/-- Modelled from the spec: imaginary part of the forward discrete Fourier
transform, companion of `dftRe`. -/
noncomputable def dftIm (re im : ℕ → ℝ) (n k : ℕ) : ℝ :=
  ∑ j ∈ Finset.range n,
    (im j * Real.cos (2 * Real.pi * k * j / n) - re j * Real.sin (2 * Real.pi * k * j / n))

/-- Function `performFFT()` (main.cpp lines 124-130) over the reals, with
the external `ArduinoFFT` routines modelled from spec §4.2 (the library is
not part of this repository).  Line 125 (`memset(vImag, 0, sizeof(vImag))`)
is repository code: the incoming imaginary buffer `vImag` is discarded and
a zero buffer is the imaginary input of the transform.  The Hamming window
is applied to the real buffer, the forward transform is computed, and
`complexToMagnitude` stores per-bin magnitudes in the real buffer while the
imaginary buffer holds the transform's imaginary part.  The returned pair
is the (real, imaginary) buffer contents after the call. -/
noncomputable def performFFT (vReal vImag : ℕ → ℝ) : (ℕ → ℝ) × (ℕ → ℝ) :=
  let vImag0 : ℕ → ℝ := fun _ => 0
  let w : ℕ → ℝ := fun j => vReal j * hammingWeight samples j
  let re : ℕ → ℝ := fun k => dftRe w vImag0 samples k
  let im : ℕ → ℝ := fun k => dftIm w vImag0 samples k
  (fun k => Real.sqrt (re k ^ 2 + im k ^ 2), im)

/-! ## Theorems -/

/-- C5: analyzing the same unchanged sample window twice in succession
yields identical spectra on both calls — the second call, whose incoming
imaginary buffer is whatever the first call left there, produces the very
buffers the first call produced, and more generally the result of
`performFFT` does not depend on the incoming imaginary buffer at all
(line 125 zeroes it before the transform), so no hidden state carried
across calls changes the result. -/
theorem performFFT_no_hidden_state :
    ∀ (v a : ℕ → ℝ),
      (performFFT v ((performFFT v a).2)).1 = (performFFT v a).1 ∧
      ∀ b : ℕ → ℝ, performFFT v a = performFFT v b :=
  fun _ _ => ⟨rfl, fun _ => rfl⟩

/-- C7: the tier mapping is a function of the intensity score alone with
exact boundary inclusivity — intensities below 25 map to Low, `[25, 60)`
to Medium, `≥ 60` to High; in particular 24.9 is Low, 25.0 and 59.9 are
Medium, and 60.0 is High. -/
theorem mapTier_boundaries :
    (∀ x : ℚ, x < 25 → mapTier x = Tier.Low) ∧
    (∀ x : ℚ, 25 ≤ x → x < 60 → mapTier x = Tier.Medium) ∧
    (∀ x : ℚ, 60 ≤ x → mapTier x = Tier.High) ∧
    mapTier (249/10) = Tier.Low ∧ mapTier 25 = Tier.Medium ∧
    mapTier (599/10) = Tier.Medium ∧ mapTier 60 = Tier.High := by
  have h1 : ∀ x : ℚ, x < 25 → mapTier x = Tier.Low := by
    intro x h
    simp [mapTier, h]
  have h2 : ∀ x : ℚ, 25 ≤ x → x < 60 → mapTier x = Tier.Medium := by
    intro x ha hb
    have hx : ¬ x < 25 := not_lt.mpr ha
    simp [mapTier, hx, ha, hb]
  have h3 : ∀ x : ℚ, 60 ≤ x → mapTier x = Tier.High := by
    intro x h
    have hx : ¬ x < 25 := by linarith
    have hy : ¬ (25 ≤ x ∧ x < 60) := by
      rintro ⟨-, h'⟩
      linarith
    simp [mapTier, hx, hy]
  refine ⟨h1, h2, h3, h1 _ (by norm_num), h2 _ (by norm_num) (by norm_num),
    h2 _ (by norm_num) (by norm_num), h3 _ (by norm_num)⟩

/-- C8: after every evaluation-period boundary — whatever event was
emitted — both counters are reset to 0 and the period start is set to the
current time, so the next period starts from the fresh state. -/
theorem boundary_resets_counters :
    ∀ (s : St) (nowMs : ℕ) (intensity : ℚ) (aEn : Bool) (ev : Event),
      (classifyTick s nowMs intensity aEn).2 = some ev →
      (classifyTick s nowMs intensity aEn).1.sampleCount = 0 ∧
      (classifyTick s nowMs intensity aEn).1.dangerCount = 0 ∧
      (classifyTick s nowMs intensity aEn).1.lastSampleSetTime = nowMs := by
  intro s nowMs intensity aEn ev h
  unfold classifyTick at h ⊢
  split_ifs at h ⊢ <;> simp_all

/-- Witness for C8 at a concrete boundary pass. -/
theorem boundary_resets_counters_witness :
    (classifyTick (St.mk 0 (fun _ => 0) 4 3 0 0) 600000 70 true).2 =
      some Event.AlarmTriggered ∧
    ((classifyTick (St.mk 0 (fun _ => 0) 4 3 0 0) 600000 70 true).1.sampleCount = 0 ∧
     (classifyTick (St.mk 0 (fun _ => 0) 4 3 0 0) 600000 70 true).1.dangerCount = 0 ∧
     (classifyTick (St.mk 0 (fun _ => 0) 4 3 0 0) 600000 70 true).1.lastSampleSetTime = 600000) := by
  have h : (classifyTick (St.mk 0 (fun _ => 0) 4 3 0 0) 600000 70 true).2 =
      some Event.AlarmTriggered := by
    norm_num [classifyTick, sampleInterval, evaluationPeriod, dangerRatio,
      tickDangerCount, tickSampleCount, dangerZoneIntensity]
  exact ⟨h, boundary_resets_counters _ 600000 70 true Event.AlarmTriggered h⟩

/-- C1: at every evaluation-period boundary the evaluator computes
`dangerRatio = dangerCount / sampleCount` on the just-incremented counters
and emits `AlarmTriggered` exactly when the ratio is at least 0.6 and the
alarm flag is enabled, `NoAlarm` in every other case; in particular a
period whose ratio is exactly 0.5 yields `NoAlarm` regardless of the
flag. -/
theorem boundary_alarm_decision :
    ∀ (s : St) (nowMs : ℕ) (intensity : ℚ) (aEn : Bool) (ev : Event),
      (classifyTick s nowMs intensity aEn).2 = some ev →
      ((ev = Event.AlarmTriggered ↔
        (3/5 ≤ dangerRatio (tickDangerCount s intensity) (tickSampleCount s) ∧
          aEn = true)) ∧
       (ev = Event.NoAlarm ↔
        ¬(3/5 ≤ dangerRatio (tickDangerCount s intensity) (tickSampleCount s) ∧
          aEn = true)) ∧
       (dangerRatio (tickDangerCount s intensity) (tickSampleCount s) = 1/2 →
        ev = Event.NoAlarm)) := by
  intro s nowMs intensity aEn ev h
  unfold classifyTick at h
  by_cases h1 : sampleInterval ≤ nowMs - s.lastSampleSetTime
  · by_cases h2 : evaluationPeriod ≤ nowMs - s.lastSampleSetTime
    · rw [if_pos h1, if_pos h2] at h
      have hev : (if 3/5 ≤ dangerRatio (tickDangerCount s intensity) (tickSampleCount s) ∧
          aEn = true then Event.AlarmTriggered else Event.NoAlarm) = ev := by
        simpa using h
      by_cases h3 : 3/5 ≤ dangerRatio (tickDangerCount s intensity) (tickSampleCount s) ∧
          aEn = true
      · rw [if_pos h3] at hev
        subst hev
        refine ⟨by simp [h3], by simp [h3], ?_⟩
        intro hhalf
        rw [hhalf] at h3
        exact absurd h3.1 (by norm_num)
      · rw [if_neg h3] at hev
        subst hev
        exact ⟨by simp [h3], by simp [h3], fun _ => rfl⟩
    · rw [if_pos h1, if_neg h2] at h
      exact absurd h (by simp)
  · rw [if_neg h1] at h
    exact absurd h (by simp)

/-- Witness for C1 at a concrete boundary pass with ratio 4/5 and the
alarm enabled. -/
theorem boundary_alarm_decision_witness :
    (classifyTick (St.mk 0 (fun _ => 0) 9 6 0 0) 600000 70 true).2 =
      some Event.AlarmTriggered ∧
    (Event.AlarmTriggered = Event.AlarmTriggered ↔
      (3/5 ≤ dangerRatio (tickDangerCount (St.mk 0 (fun _ => 0) 9 6 0 0) 70)
        (tickSampleCount (St.mk 0 (fun _ => 0) 9 6 0 0)) ∧ true = true)) := by
  have h : (classifyTick (St.mk 0 (fun _ => 0) 9 6 0 0) 600000 70 true).2 =
      some Event.AlarmTriggered := by
    norm_num [classifyTick, sampleInterval, evaluationPeriod, dangerRatio,
      tickDangerCount, tickSampleCount, dangerZoneIntensity]
  exact ⟨h, (boundary_alarm_decision _ 600000 70 true Event.AlarmTriggered h).1⟩

/-- C6: the danger-ratio division is never performed with a zero
`sampleCount` — whenever the period-boundary computation is reached, the
divisor is the just-incremented `sampleCount`, which is strictly
positive. -/
theorem dangerRatio_divisor_positive :
    ∀ (s : St) (nowMs : ℕ) (intensity : ℚ) (aEn : Bool),
      (classifyTick s nowMs intensity aEn).2 ≠ none →
      0 < tickSampleCount s ∧
      (classifyTick s nowMs intensity aEn).2 =
        some (if 3/5 ≤ dangerRatio (tickDangerCount s intensity) (tickSampleCount s) ∧
            aEn = true then Event.AlarmTriggered else Event.NoAlarm) := by
  intro s nowMs intensity aEn h
  refine ⟨Nat.succ_pos _, ?_⟩
  unfold classifyTick at h ⊢
  split_ifs at h ⊢ <;> simp_all

/-- Witness for C6 at a concrete boundary pass. -/
theorem dangerRatio_divisor_positive_witness :
    (classifyTick (St.mk 0 (fun _ => 0) 4 1 0 0) 600000 0 false).2 ≠ none ∧
    0 < tickSampleCount (St.mk 0 (fun _ => 0) 4 1 0 0) := by
  have h : (classifyTick (St.mk 0 (fun _ => 0) 4 1 0 0) 600000 0 false).2 ≠ none := by
    have hs : (classifyTick (St.mk 0 (fun _ => 0) 4 1 0 0) 600000 0 false).2 =
        some Event.NoAlarm := by
      norm_num [classifyTick, sampleInterval, evaluationPeriod, dangerRatio,
        tickDangerCount, tickSampleCount, dangerZoneIntensity]
    rw [hs]
    exact Option.some_ne_none _
  exact ⟨h, (dangerRatio_divisor_positive _ 600000 0 false h).1⟩

/-- C10: a push with the cursor at 0 first clears all slots of the buffer
and then writes the new sample at slot 0, so the post-push buffer holds
the sample at slot 0 and 0 everywhere else — no stale values survive the
start of a fill cycle. -/
theorem push_at_zero_clears :
    ∀ (s : St) (x : ℚ), s.index = 0 →
      (push s x).1.vReal 0 = x ∧ ∀ i : ℕ, i ≠ 0 → (push s x).1.vReal i = 0 := by
  intro s x h
  constructor
  · simp [push, h, samples]
  · intro i hi
    simp [push, h, samples, Function.update_apply, hi]

/-- Witness for C10: pushing 7 from cursor 0 leaves slot 0 holding 7 and
slot 3 holding 0. -/
theorem push_at_zero_clears_witness :
    (push (St.mk 0 (fun j => (j : ℚ) + 1) 0 0 0 0) 7).1.vReal 0 = 7 ∧
    (push (St.mk 0 (fun j => (j : ℚ) + 1) 0 0 0 0) 7).1.vReal 3 = 0 := by
  have h := push_at_zero_clears (St.mk 0 (fun j => (j : ℚ) + 1) 0 0 0 0) 7 rfl
  exact ⟨h.1, h.2 3 (by decide)⟩

/-- Unfolding equation for `pushList` on a cons cell: result list. -/
theorem pushList_cons_snd (s : St) (x : ℚ) (xs : List ℚ) :
    (pushList s (x :: xs)).2 = (push s x).2 :: (pushList (push s x).1 xs).2 := rfl

/-- Unfolding equation for `pushList` on a cons cell: final state. -/
theorem pushList_cons_fst (s : St) (x : ℚ) (xs : List ℚ) :
    (pushList s (x :: xs)).1 = (pushList (push s x).1 xs).1 := rfl

/-- Helper for C3: iterating `push` over a list whose length exactly fills
the remaining slots of the window returns false on every call but the
last, true on the last, and leaves the cursor at 0. -/
theorem pushList_fill_cycle :
    ∀ (l : List ℚ) (s : St), 0 < l.length → s.index + l.length = samples →
      (pushList s l).2 = List.replicate (l.length - 1) false ++ [true] ∧
      (pushList s l).1.index = 0 := by
  intro l
  induction l with
  | nil => intro s h0 _; exact absurd h0 (by simp)
  | cons x xs ih =>
    intro s _ hfill
    cases xs with
    | nil =>
      have hc : samples ≤ s.index + 1 := by
        simp only [List.length_cons, List.length_nil] at hfill
        omega
      constructor
      · simp [pushList, push, hc]
      · simp [pushList, push, hc]
    | cons y ys =>
      have hlt : ¬ (samples ≤ s.index + 1) := by
        simp only [List.length_cons] at hfill
        omega
      have hfalse : (push s x).2 = false := by
        simp [push, hlt]
      have hidx' : (push s x).1.index = s.index + 1 := by
        simp [push, hlt]
      have hfill' : (push s x).1.index + (y :: ys).length = samples := by
        rw [hidx']
        simp only [List.length_cons] at hfill ⊢
        omega
      have htail := ih (push s x).1 (by simp) hfill'
      refine ⟨?_, ?_⟩
      · rw [pushList_cons_snd, hfalse, htail.1]
        simp [List.replicate_succ]
      · rw [pushList_cons_fst]
        exact htail.2

/-- C3: starting from cursor 0, a sequence of exactly `samples` accepted
pushes returns false on each of the first `samples - 1` calls, true on the
last call, and leaves the cursor at 0 immediately after. -/
theorem pushList_window_complete :
    ∀ (s : St) (l : List ℚ), s.index = 0 → l.length = samples →
      (pushList s l).2 = List.replicate (samples - 1) false ++ [true] ∧
      (pushList s l).1.index = 0 := by
  intro s l h hlen
  have h0 : 0 < l.length := by
    rw [hlen]
    decide
  have hfill : s.index + l.length = samples := by
    rw [h, hlen, Nat.zero_add]
  have := pushList_fill_cycle l s h0 hfill
  rwa [hlen] at this

/-- Witness for C3: 128 pushes of the constant sample 1 from the initial
state. -/
theorem pushList_window_complete_witness :
    (pushList (initSt 0) (List.replicate 128 1)).2 =
      List.replicate (samples - 1) false ++ [true] ∧
    (pushList (initSt 0) (List.replicate 128 1)).1.index = 0 :=
  pushList_window_complete (initSt 0) (List.replicate 128 1) rfl (by simp [samples])

/-- The fold of `binStep` never drops below its accumulator. -/
theorem foldl_binStep_init_le (v : ℕ → ℚ) (sf : ℚ) (n : ℕ) :
    ∀ (l : List ℕ) (a : ℚ), a ≤ l.foldl (binStep v sf n) a := by
  intro l
  induction l with
  | nil => intro a; exact le_refl a
  | cons i l ih =>
    intro a
    refine le_trans ?_ (ih (binStep v sf n a i))
    unfold binStep
    split_ifs
    · exact le_max_left _ _
    · exact le_refl a

/-- The fold of `binStep` dominates every in-band value it visits. -/
theorem foldl_binStep_mem_le (v : ℕ → ℚ) (sf : ℚ) (n : ℕ) :
    ∀ (l : List ℕ) (a : ℚ) (i : ℕ), i ∈ l → inBand sf n i →
      v i ≤ l.foldl (binStep v sf n) a := by
  intro l
  induction l with
  | nil => intro a i hi; exact absurd hi (List.not_mem_nil i)
  | cons j l ih =>
    intro a i hi hband
    rcases List.mem_cons.mp hi with hij | hil
    · subst hij
      refine le_trans ?_ (foldl_binStep_init_le v sf n l (binStep v sf n a i))
      unfold binStep
      rw [if_pos hband]
      exact le_max_right _ _
    · exact ih (binStep v sf n a j) i hil hband

/-- The fold of `binStep` is either its accumulator or one of the in-band
values it visited (first maximum wins). -/
theorem foldl_binStep_attained (v : ℕ → ℚ) (sf : ℚ) (n : ℕ) :
    ∀ (l : List ℕ) (a : ℚ),
      l.foldl (binStep v sf n) a = a ∨
      ∃ i, i ∈ l ∧ inBand sf n i ∧ l.foldl (binStep v sf n) a = v i := by
  intro l
  induction l with
  | nil => intro a; exact Or.inl rfl
  | cons j l ih =>
    intro a
    by_cases hb : inBand sf n j
    · have hstep : binStep v sf n a j = max a (v j) := by
        unfold binStep
        rw [if_pos hb]
      rcases ih (binStep v sf n a j) with h | ⟨i, hil, hband, heq⟩
      · rw [List.foldl_cons, h, hstep]
        rcases max_choice a (v j) with hm | hm
        · exact Or.inl hm
        · exact Or.inr ⟨j, List.mem_cons_self j l, hb, hm⟩
      · exact Or.inr ⟨i, List.mem_cons_of_mem j hil, hband, heq⟩
    · have hstep : binStep v sf n a j = a := by
        unfold binStep
        rw [if_neg hb]
      rcases ih (binStep v sf n a j) with h | ⟨i, hil, hband, heq⟩
      · rw [List.foldl_cons, h, hstep]
        exact Or.inl rfl
      · exact Or.inr ⟨i, List.mem_cons_of_mem j hil, hband, heq⟩

/-- The fold of `binStep` over a list with no in-band index returns its
accumulator unchanged. -/
theorem foldl_binStep_empty (v : ℕ → ℚ) (sf : ℚ) (n : ℕ) :
    ∀ (l : List ℕ) (a : ℚ), (∀ i ∈ l, ¬ inBand sf n i) →
      l.foldl (binStep v sf n) a = a := by
  intro l
  induction l with
  | nil => intro a _; rfl
  | cons j l ih =>
    intro a h
    have hstep : binStep v sf n a j = a := by
      unfold binStep
      rw [if_neg (h j (List.mem_cons_self j l))]
    rw [List.foldl_cons, hstep]
    exact ih a (fun i hi => h i (List.mem_cons_of_mem j hi))

/-- The fold of `binStep` only reads the buffer at indices of the list. -/
theorem foldl_binStep_congr (v w : ℕ → ℚ) (sf : ℚ) (n : ℕ) :
    ∀ (l : List ℕ) (a : ℚ), (∀ i ∈ l, v i = w i) →
      l.foldl (binStep v sf n) a = l.foldl (binStep w sf n) a := by
  intro l
  induction l with
  | nil => intro a _; rfl
  | cons j l ih =>
    intro a h
    have hstep : binStep v sf n a j = binStep w sf n a j := by
      unfold binStep
      rw [h j (List.mem_cons_self j l)]
    rw [List.foldl_cons, List.foldl_cons, hstep]
    exact ih (binStep w sf n a j) (fun i hi => h i (List.mem_cons_of_mem j hi))

/-- Membership in the scan range of `analyzeFFT`: bins 1 to `n/2 - 1`. -/
theorem mem_scan_range (n : ℕ) :
    ∀ i : ℕ, i ∈ List.range' 1 (n / 2 - 1) ↔ 1 ≤ i ∧ i < n / 2 := by
  intro i
  rw [List.mem_range'_1]
  omega

/-- Membership in `tremorBand`. -/
theorem mem_tremorBand (sf : ℚ) (n : ℕ) :
    ∀ i : ℕ, i ∈ tremorBand sf n ↔ (1 ≤ i ∧ i < n / 2) ∧ inBand sf n i := by
  intro i
  unfold tremorBand
  rw [Finset.mem_filter, Finset.mem_range]
  tauto

/-- C2: `analyzeFFT` returns the maximum magnitude over exactly the bins
in `[1, n/2 - 1]` whose frequency lies in the closed band `[3, 6]` —
0 when no bin falls in the band, the attained maximum of the in-band
magnitudes otherwise (for the nonnegative magnitudes a spectrum yields) —
and it never reads bin 0, whatever that bin's computed frequency. -/
theorem analyzeFFT_band_max :
    ∀ (v : ℕ → ℚ) (sf : ℚ) (n : ℕ),
      (tremorBand sf n = ∅ → analyzeFFT v sf n = 0) ∧
      ((∀ i ∈ tremorBand sf n, 0 ≤ v i) → (tremorBand sf n).Nonempty →
        (∃ i ∈ tremorBand sf n, analyzeFFT v sf n = v i) ∧
        ∀ i ∈ tremorBand sf n, v i ≤ analyzeFFT v sf n) ∧
      (∀ w : ℕ → ℚ, (∀ i, 1 ≤ i → v i = w i) →
        analyzeFFT v sf n = analyzeFFT w sf n) := by
  intro v sf n
  refine ⟨?_, ?_, ?_⟩
  · intro hempty
    unfold analyzeFFT
    refine foldl_binStep_empty v sf n _ 0 ?_
    intro i hi hband
    have hmem : i ∈ tremorBand sf n := by
      rw [mem_tremorBand]
      exact ⟨(mem_scan_range n i).mp hi, hband⟩
    rw [hempty] at hmem
    exact absurd hmem (Finset.not_mem_empty i)
  · intro hnonneg hne
    have hub : ∀ i ∈ tremorBand sf n, v i ≤ analyzeFFT v sf n := by
      intro i hi
      rw [mem_tremorBand] at hi
      unfold analyzeFFT
      exact foldl_binStep_mem_le v sf n _ 0 i ((mem_scan_range n i).mpr hi.1) hi.2
    refine ⟨?_, hub⟩
    rcases foldl_binStep_attained v sf n (List.range' 1 (n / 2 - 1)) 0 with h0 | hatt
    · obtain ⟨j, hj⟩ := hne
      refine ⟨j, hj, ?_⟩
      have h1 : v j ≤ analyzeFFT v sf n := hub j hj
      have h2 : analyzeFFT v sf n = 0 := h0
      have h3 : 0 ≤ v j := hnonneg j hj
      rw [h2]
      rw [h2] at h1
      exact le_antisymm h3 h1
    · obtain ⟨i, hil, hband, heq⟩ := hatt
      refine ⟨i, ?_, heq⟩
      rw [mem_tremorBand]
      exact ⟨(mem_scan_range n i).mp hil, hband⟩
  · intro w hw
    unfold analyzeFFT
    exact foldl_binStep_congr v w sf n _ 0
      (fun i hi => hw i ((mem_scan_range n i).mp hi).1)

/-- A push never touches the evaluator's counters. -/
theorem push_counts (s : St) (x : ℚ) :
    (push s x).1.sampleCount = s.sampleCount ∧
    (push s x).1.dangerCount = s.dangerCount := by
  unfold push
  split_ifs <;> exact ⟨rfl, rfl⟩

/-- A `collectSamples` pass never touches the evaluator's counters. -/
theorem collectSamples_counts (s : St) (t : ℕ) (mag : ℚ) :
    (collectSamples s t mag).1.sampleCount = s.sampleCount ∧
    (collectSamples s t mag).1.dangerCount = s.dangerCount := by
  unfold collectSamples
  split_ifs
  · exact push_counts _ mag
  · exact ⟨rfl, rfl⟩

/-- The tick/boundary logic preserves `dangerCount ≤ sampleCount`. -/
theorem classifyTick_preserves_inv (s : St) (nowMs : ℕ) (intensity : ℚ) (aEn : Bool) :
    s.dangerCount ≤ s.sampleCount →
    (classifyTick s nowMs intensity aEn).1.dangerCount ≤
      (classifyTick s nowMs intensity aEn).1.sampleCount := by
  intro h
  unfold classifyTick tickDangerCount tickSampleCount
  split_ifs <;> simp <;> omega

/-- C9: `dangerCount ≤ sampleCount` is an invariant of the evaluator — it
is preserved by every pass of the loop (ticks increment `dangerCount`
only together with `sampleCount`, boundaries reset both), and it holds in
every state reachable from the boot state. -/
theorem dangerCount_le_sampleCount :
    (∀ (F : (ℕ → ℚ) → (ℕ → ℚ)) (s : St) (i : In),
        s.dangerCount ≤ s.sampleCount →
        (loopStep F s i).1.dangerCount ≤ (loopStep F s i).1.sampleCount) ∧
    (∀ (F : (ℕ → ℚ) → (ℕ → ℚ)) (t0 : ℕ) (l : List In),
        (run F (initSt t0) l).dangerCount ≤ (run F (initSt t0) l).sampleCount) := by
  have hstep : ∀ (F : (ℕ → ℚ) → (ℕ → ℚ)) (s : St) (i : In),
      s.dangerCount ≤ s.sampleCount →
      (loopStep F s i).1.dangerCount ≤ (loopStep F s i).1.sampleCount := by
    intro F s i h
    simp only [loopStep]
    split_ifs with hr hc
    · refine classifyTick_preserves_inv _ _ _ _ ?_
      have := collectSamples_counts s i.t i.mag
      show (collectSamples s i.t i.mag).1.dangerCount ≤
        (collectSamples s i.t i.mag).1.sampleCount
      omega
    · have := collectSamples_counts s i.t i.mag
      show (collectSamples s i.t i.mag).1.dangerCount ≤
        (collectSamples s i.t i.mag).1.sampleCount
      omega
    · exact h
  refine ⟨hstep, ?_⟩
  intro F t0 l
  have hrun : ∀ (l : List In) (s : St), s.dangerCount ≤ s.sampleCount →
      (run F s l).dangerCount ≤ (run F s l).sampleCount := by
    intro l
    induction l with
    | nil => intro s h; exact h
    | cons i l ih =>
      intro s h
      rw [run, List.foldl_cons]
      exact ih (loopStep F s i).1 (hstep F s i h)
  exact hrun l (initSt t0) (le_refl 0)

/-- Witness for C9's preservation conjunct at a concrete state and pass. -/
theorem dangerCount_le_sampleCount_witness :
    (St.mk 0 (fun _ => 0) 5 2 0 0).dangerCount ≤
      (St.mk 0 (fun _ => 0) 5 2 0 0).sampleCount ∧
    (loopStep id (St.mk 0 (fun _ => 0) 5 2 0 0) (In.mk 0 1 false false)).1.dangerCount ≤
      (loopStep id (St.mk 0 (fun _ => 0) 5 2 0 0) (In.mk 0 1 false false)).1.sampleCount :=
  ⟨by decide, dangerCount_le_sampleCount.1 id (St.mk 0 (fun _ => 0) 5 2 0 0)
    (In.mk 0 1 false false) (by decide)⟩

/-- The tick/boundary logic never touches the window cursor or the
sampling-gate timestamp. -/
theorem classifyTick_timing (s : St) (nowMs : ℕ) (intensity : ℚ) (aEn : Bool) :
    (classifyTick s nowMs intensity aEn).1.index = s.index ∧
    (classifyTick s nowMs intensity aEn).1.lastTime = s.lastTime := by
  unfold classifyTick
  split_ifs <;> exact ⟨rfl, rfl⟩

/-- A push that reaches capacity reports completion and wraps the cursor. -/
theorem push_complete (s : St) (x : ℚ) (h : samples ≤ s.index + 1) :
    (push s x).2 = true ∧ (push s x).1.index = 0 ∧ (push s x).1.lastTime = s.lastTime := by
  simp only [push]
  rw [if_pos h]
  exact ⟨rfl, rfl, rfl⟩

/-- A push short of capacity reports no completion and advances the cursor. -/
theorem push_incomplete (s : St) (x : ℚ) (h : ¬ samples ≤ s.index + 1) :
    (push s x).2 = false ∧ (push s x).1.index = s.index + 1 ∧
    (push s x).1.lastTime = s.lastTime := by
  simp only [push]
  rw [if_neg h]
  exact ⟨rfl, rfl, rfl⟩

/-- Case analysis of a `collectSamples` pass: rejected by the sampling
gate, accepted and completing the window, or accepted mid-window. -/
theorem collectSamples_cases (s : St) (t : ℕ) (mag : ℚ) :
    (¬ samplingPeriod ≤ t - s.lastTime ∧ collectSamples s t mag = (s, false)) ∨
    (samplingPeriod ≤ t - s.lastTime ∧ samples ≤ s.index + 1 ∧
      (collectSamples s t mag).2 = true ∧ (collectSamples s t mag).1.index = 0 ∧
      (collectSamples s t mag).1.lastTime = t) ∨
    (samplingPeriod ≤ t - s.lastTime ∧ ¬ samples ≤ s.index + 1 ∧
      (collectSamples s t mag).2 = false ∧
      (collectSamples s t mag).1.index = s.index + 1 ∧
      (collectSamples s t mag).1.lastTime = t) := by
  unfold collectSamples
  split_ifs with h1
  · by_cases h2 : samples ≤ s.index + 1
    · have hp := push_complete { s with lastTime := t } mag h2
      exact Or.inr (Or.inl ⟨h1, h2, hp.1, hp.2.1, hp.2.2⟩)
    · have hp := push_incomplete { s with lastTime := t } mag h2
      exact Or.inr (Or.inr ⟨h1, h2, hp.1, hp.2.1, hp.2.2⟩)
  · exact Or.inl ⟨h1, rfl⟩

/-- Case analysis of the state a loop pass leaves: device paused, no
window completion, or completion (in which case the cursor and gate
timestamp are those `collectSamples` left, since the evaluator does not
touch them). -/
theorem loopStep_fst_cases (F : (ℕ → ℚ) → (ℕ → ℚ)) (s : St) (i : In) :
    (¬ i.running = true ∧ (loopStep F s i).1 = s) ∨
    (i.running = true ∧ (collectSamples s i.t i.mag).2 = false ∧
      (loopStep F s i).1 = (collectSamples s i.t i.mag).1) ∨
    (i.running = true ∧ (collectSamples s i.t i.mag).2 = true ∧
      (loopStep F s i).1.index = (collectSamples s i.t i.mag).1.index ∧
      (loopStep F s i).1.lastTime = (collectSamples s i.t i.mag).1.lastTime) := by
  simp only [loopStep]
  by_cases hr : i.running = true
  · by_cases hc : (collectSamples s i.t i.mag).2 = true
    · refine Or.inr (Or.inr ⟨hr, hc, ?_, ?_⟩)
      · rw [if_pos hr, if_pos hc]
        exact (classifyTick_timing _ _ _ _).1
      · rw [if_pos hr, if_pos hc]
        exact (classifyTick_timing _ _ _ _).2
    · refine Or.inr (Or.inl ⟨hr, ?_, ?_⟩)
      · simpa using hc
      · rw [if_pos hr, if_neg hc]
  · refine Or.inl ⟨hr, ?_⟩
    rw [if_neg hr]

/-- Timing facts of one loop pass under a monotone clock: the sampling
timestamp never exceeds the pass time, the earliest-completion bound `phi`
never decreases, and a pass that completes a window happens no earlier
than `phi` and pushes the bound a full window ahead. -/
theorem loopStep_timing (F : (ℕ → ℚ) → (ℕ → ℚ)) (s : St) (i : In)
    (h : s.lastTime ≤ i.t) :
    (loopStep F s i).1.lastTime ≤ i.t ∧
    phi s ≤ phi (loopStep F s i).1 ∧
    (completedAt s i = true →
      phi s ≤ i.t ∧ phi (loopStep F s i).1 = i.t + samples * samplingPeriod) := by
  have hcompAt : completedAt s i = (i.running && (collectSamples s i.t i.mag).2) := rfl
  rcases loopStep_fst_cases F s i with ⟨hr, heq⟩ | ⟨hr, hc2, heq⟩ | ⟨hr, hc2, hidx, hlt⟩
  · rw [heq]
    refine ⟨h, le_refl _, ?_⟩
    intro hcomp
    rw [hcompAt] at hcomp
    simp [hr] at hcomp
  · rcases collectSamples_cases s i.t i.mag with ⟨hacc, hcs⟩ | ⟨_, _, hb, _, _⟩ |
      ⟨hacc, hncompl, _, hidx, hlt⟩
    · rw [heq, hcs]
      refine ⟨h, le_refl _, ?_⟩
      intro hcomp
      rw [hcompAt, hcs] at hcomp
      simp at hcomp
    · rw [hb] at hc2
      exact absurd hc2 (by simp)
    · refine ⟨?_, ?_, ?_⟩
      · rw [heq, hlt]
      · simp only [phi, heq, hlt, hidx, samples, samplingPeriod]
        simp only [samples] at hncompl
        simp only [samplingPeriod] at hacc
        omega
      · intro hcomp
        rw [hcompAt] at hcomp
        simp [hr, hc2] at hcomp
  · rcases collectSamples_cases s i.t i.mag with ⟨hacc, hcs⟩ | ⟨hacc, hcompl, _, hi0, hlt0⟩ |
      ⟨_, _, hb, _, _⟩
    · rw [hcs] at hc2
      exact absurd hc2 (by simp)
    · have hphile : phi s ≤ i.t := by
        simp only [phi, samples, samplingPeriod]
        simp only [samples] at hcompl
        simp only [samplingPeriod] at hacc
        omega
      have hphi' : phi (loopStep F s i).1 = i.t + samples * samplingPeriod := by
        simp only [phi, hidx, hlt, hi0, hlt0, Nat.sub_zero]
      refine ⟨?_, ?_, ?_⟩
      · rw [hlt, hlt0]
      · rw [hphi']
        exact le_trans hphile (Nat.le_add_right _ _)
      · intro _
        exact ⟨hphile, hphi'⟩
    · rw [hb] at hc2
      exact absurd hc2 (by simp)

/-- Along a run with a monotone clock, every later window completion
happens no earlier than the current earliest-completion bound `phi`. -/
theorem completionTimes_lower (F : (ℕ → ℚ) → (ℕ → ℚ)) :
    ∀ (l : List In) (s : St) (tp : ℕ), s.lastTime ≤ tp →
      List.Chain (· ≤ ·) tp (l.map In.t) →
      ∀ x ∈ completionTimes F s l, phi s ≤ x := by
  intro l
  induction l with
  | nil =>
    intro s tp _ _ x hx
    simp [completionTimes] at hx
  | cons i l ih =>
    intro s tp hlt hch x hx
    rw [List.map_cons, List.chain_cons] at hch
    obtain ⟨h1, h2⟩ := hch
    have hlt' : s.lastTime ≤ i.t := le_trans hlt h1
    have htim := loopStep_timing F s i hlt'
    by_cases hcomp : completedAt s i = true
    · simp only [completionTimes, hcomp, if_true, List.cons_append, List.nil_append,
        List.mem_cons] at hx
      rcases hx with hx | hx
      · subst hx
        exact (htim.2.2 hcomp).1
      · exact le_trans htim.2.1 (ih (loopStep F s i).1 i.t htim.1 h2 x hx)
    · simp only [completionTimes, hcomp, if_false, List.nil_append] at hx
      exact le_trans htim.2.1 (ih (loopStep F s i).1 i.t htim.1 h2 x hx)

/-- Along a run with a monotone clock, any two window completions are at
least one full window of sampling periods apart. -/
theorem completionTimes_spaced (F : (ℕ → ℚ) → (ℕ → ℚ)) :
    ∀ (l : List In) (s : St) (tp : ℕ), s.lastTime ≤ tp →
      List.Chain (· ≤ ·) tp (l.map In.t) →
      List.Pairwise (fun a b => a + samples * samplingPeriod ≤ b)
        (completionTimes F s l) := by
  intro l
  induction l with
  | nil =>
    intro s tp _ _
    simp [completionTimes]
  | cons i l ih =>
    intro s tp hlt hch
    rw [List.map_cons, List.chain_cons] at hch
    obtain ⟨h1, h2⟩ := hch
    have hlt' : s.lastTime ≤ i.t := le_trans hlt h1
    have htim := loopStep_timing F s i hlt'
    by_cases hcomp : completedAt s i = true
    · simp only [completionTimes, hcomp, if_true, List.cons_append, List.nil_append]
      rw [List.pairwise_cons]
      refine ⟨?_, ih (loopStep F s i).1 i.t htim.1 h2⟩
      intro x hx
      have hlow := completionTimes_lower F l (loopStep F s i).1 i.t htim.1 h2 x hx
      rw [(htim.2.2 hcomp).2] at hlow
      exact hlow
    · simp only [completionTimes, hcomp, if_false, List.nil_append]
      exact ih (loopStep F s i).1 i.t htim.1 h2

/-- The classification ticks are a subsequence of the window completions
(a tick happens only on a pass that completes a window). -/
theorem tickTimes_sublist (F : (ℕ → ℚ) → (ℕ → ℚ)) :
    ∀ (l : List In) (s : St),
      List.Sublist (tickTimes F s l) (completionTimes F s l) := by
  intro l
  induction l with
  | nil =>
    intro s
    simp [tickTimes, completionTimes]
  | cons i l ih =>
    intro s
    by_cases hcomp : completedAt s i = true
    · by_cases htick : tickedAt s i = true
      · simp only [tickTimes, completionTimes, hcomp, htick, if_true, List.cons_append,
          List.nil_append]
        exact List.Sublist.cons₂ i.t (ih (loopStep F s i).1)
      · simp only [tickTimes, completionTimes, hcomp, htick, if_true, if_false,
          List.cons_append, List.nil_append]
        exact List.Sublist.cons i.t (ih (loopStep F s i).1)
    · have htick : ¬ tickedAt s i = true := by
        rw [tickedAt]
        simp [hcomp]
      simp only [tickTimes, completionTimes, hcomp, htick, if_false, List.nil_append]
      exact ih (loopStep F s i).1

/-- C4: under a monotone clock, any two classification ticks of the
evaluator — the second one in particular — are at least `sampleInterval`
(2000 ms, i.e. 2,000,000 µs) of elapsed time apart; the sampling gate in
fact spaces completions (hence ticks) a full window apart. -/
theorem ticks_spaced_by_sampleInterval :
    ∀ (F : (ℕ → ℚ) → (ℕ → ℚ)) (s : St) (tp : ℕ) (l : List In),
      s.lastTime ≤ tp → List.Chain (· ≤ ·) tp (l.map In.t) →
      List.Pairwise (fun a b => a + 1000 * sampleInterval ≤ b) (tickTimes F s l) := by
  intro F s tp l h1 h2
  have hp := completionTimes_spaced F l s tp h1 h2
  have hpt := hp.sublist (tickTimes_sublist F l s)
  refine hpt.imp ?_
  intro a b hab
  simp only [samples, samplingPeriod] at hab
  simp only [sampleInterval]
  omega

/-- Witness for C4 on a concrete two-pass trace with a monotone clock. -/
theorem ticks_spaced_witness :
    (initSt 0).lastTime ≤ 0 ∧
    List.Chain (· ≤ ·) 0
      (([In.mk 30000 5 true false, In.mk 60000 5 true true]).map In.t) ∧
    List.Pairwise (fun a b => a + 1000 * sampleInterval ≤ b)
      (tickTimes id (initSt 0) [In.mk 30000 5 true false, In.mk 60000 5 true true]) := by
  have hch : List.Chain (· ≤ ·) 0
      (([In.mk 30000 5 true false, In.mk 60000 5 true true]).map In.t) := by
    show List.Chain (· ≤ ·) 0 [30000, 60000]
    exact List.Chain.cons (by decide) (List.Chain.cons (by decide) List.Chain.nil)
  exact ⟨le_of_eq rfl, hch,
    ticks_spaced_by_sampleInterval id (initSt 0) 0 _ (le_of_eq rfl) hch⟩

end Tremor
